import Mathlib

/-!
Verification of the OSS-AI-Agent-Tool indexer service against its
natural-language specification.

The development shallowly embeds the Rust sources of
`src/services/indexer/src/{ast.rs, lsp.rs, semantic.rs, main.rs}`:

* pure Rust functions become Lean functions;
* the external tree-sitter parser is a parameter (`ParserOracle`): the
  grammar-resolution table (`language_for_id`) is code of the repository and
  is embedded faithfully, while `Parser::set_language` / `Parser::parse`
  produce oracle-supplied trees (`TSNode`), which carry the covering source
  text of each node (`Node::utf8_text` always succeeds on real trees);
* `f32` arithmetic is modelled over `ℚ`: every primitive operation rounds its
  exact rational result to nearest-even at 24 significant bits (`fround`).
  Overflow, subnormal underflow, `NaN` and the sign of zero are not modelled:
  none arise for the value ranges this program produces.  The square root is
  computed to far below one ulp before rounding;
* `u64` values are `ℕ` with explicit `% 2 ^ 64` bounds where they matter;
  the external `xxh3::hash64_with_seed` token hash is a parameter
  `hashFn : String → ℕ`;
* Unicode-aware Rust primitives (`char::is_whitespace`,
  `char::is_alphanumeric`, `str::to_lowercase`) are modelled by their ASCII
  restrictions via `Char.isWhitespace`, `Char.isAlphanum`, `Char.toLower`;
  the claims settled here do not depend on the difference;
* `HashMap`s keyed by strings become association lists (document sessions) or
  point-wise-updated functions (the path index), preserving the operations'
  observable behaviour.
-/

/-! ## A rational model of IEEE-754 binary32 arithmetic -/

set_option allowUnsafeReducibility true in
attribute [semireducible] Rat.add Rat.sub Rat.mul Rat.inv

set_option maxRecDepth 4000

/-- Round a rational to the nearest integer, ties to even. -/
def rne (x : ℚ) : ℤ :=
  let f := ⌊x⌋
  let r := x - f
  if r < 1/2 then f
  else if 1/2 < r then f + 1
  else if 2 ∣ f then f else f + 1

/-- Fuelled binary logarithm on `ℕ`; `elog2 f n = ⌊log₂ n⌋` whenever
`1 ≤ n ≤ 2 ^ f`.  (Structural recursion on the fuel keeps it
kernel-reducible.) -/
def elog2 : ℕ → ℕ → ℕ
  | 0, _ => 0
  | f + 1, n => if n ≤ 1 then 0 else elog2 f (n / 2) + 1

/-- `⌊log₂ n⌋` for `n ≥ 1` (and `0` at `0`). -/
def natLog2 (n : ℕ) : ℕ := elog2 n n

/-- The binary exponent of a non-zero rational: `qexp q = ⌊log₂ |q|⌋`. -/
def qexp (q : ℚ) : ℤ :=
  let n := q.num.natAbs
  let d := q.den
  let a := natLog2 n
  let b := natLog2 d
  if d * 2 ^ a ≤ n * 2 ^ b then (a : ℤ) - b else (a : ℤ) - b - 1

/-- `2 ^ e` over `ℚ` for an integer exponent, written so that the kernel can
evaluate it on concrete inputs. -/
def qpow2 (e : ℤ) : ℚ :=
  if 0 ≤ e then ((2 ^ e.toNat : ℕ) : ℚ) else 1 / ((2 ^ (-e).toNat : ℕ) : ℚ)

/-- Round an exact rational to the nearest `f32` value: nearest-even at
24 significant bits.  Overflow and subnormal underflow are not modelled. -/
def fround (q : ℚ) : ℚ :=
  if q = 0 then 0
  else
    let g : ℚ := qpow2 (qexp q - 23)
    g * rne (q / g)

/-- `f32` addition. -/
def fadd (a b : ℚ) : ℚ := fround (a + b)

/-- `f32` multiplication. -/
def fmul (a b : ℚ) : ℚ := fround (a * b)

/-- `f32` division. -/
def fdiv (a b : ℚ) : ℚ := fround (a / b)

/-- Truncation toward zero, as Rust's float-to-int-like `trunc`. -/
def qtrunc (x : ℚ) : ℤ := if 0 ≤ x then ⌊x⌋ else ⌈x⌉

/-- Rust's `%` on floats (`fmod`): `a - b * trunc (a / b)`.  The result of
`fmod` on representable values is exactly representable, so no rounding step
is needed. -/
def frem (a b : ℚ) : ℚ := a - b * qtrunc (a / b)

/-- Rust's `u64 as f32` cast: round the integer to the nearest `f32`. -/
def u64ToF32 (h : ℕ) : ℚ := fround h

/-- Fuelled integer Newton iteration for square roots. -/
def sqrtIter : ℕ → ℕ → ℕ → ℕ
  | 0, _, x => x
  | f + 1, n, x =>
    let y := (x + n / x) / 2
    if y < x then sqrtIter f n y else x

/-- Integer square root via Newton iteration (kernel-reducible). -/
def nsqrt (n : ℕ) : ℕ := if n ≤ 1 then n else sqrtIter n n n

/-- `f32` square root: computed on rationals to well below one ulp, then
rounded.  No claim in this file depends on its exact value. -/
def fsqrt (q : ℚ) : ℚ :=
  if q ≤ 0 then 0
  else fround ((nsqrt (q.num.natAbs * q.den * 4 ^ 48) : ℚ) / (q.den * 2 ^ 48))

/-- Rust's `f32::clamp`. -/
def fclamp (x lo hi : ℚ) : ℚ := if x < lo then lo else if hi < x then hi else x

/-! ## Models of the Rust string primitives used by the indexer

Rust's `str::trim`, `char::is_alphanumeric` and `str::to_lowercase` use the
Unicode classifications; they are modelled by the ASCII-restricted
`Char.isWhitespace`, `Char.isAlphanum` and `Char.toLower`.  Byte lengths
(`str::len`) are computed from the UTF-8 width of each character. -/

/-- Rust `str::trim` on a character list. -/
def trimL (l : List Char) : List Char :=
  ((l.dropWhile Char.isWhitespace).reverse.dropWhile Char.isWhitespace).reverse

/-- Rust `str::trim`. -/
def rsTrim (s : String) : String := ⟨trimL s.data⟩

/-- The number of bytes of the UTF-8 encoding of a character. -/
def csize (c : Char) : ℕ :=
  if c.toNat < 128 then 1
  else if c.toNat < 2048 then 2
  else if c.toNat < 65536 then 3
  else 4

/-- Rust `str::len`: the UTF-8 byte length. -/
def byteLen (s : String) : ℕ := (s.data.map csize).sum

/-- The separator predicate of `semantic.rs`'s `tokenize`:
`!c.is_alphanumeric() && c != '_'`. -/
def isSepChar (c : Char) : Bool := !(c.isAlphanum || c == '_')

/-- Rust `str::split(pred)` on character lists (keeps empty pieces, as Rust
does). -/
def splitChars (p : Char → Bool) : List Char → List Char → List (List Char)
  | [], cur => [cur.reverse]
  | c :: cs, cur =>
    if p c then cur.reverse :: splitChars p cs [] else splitChars p cs (c :: cur)

/-- `semantic.rs::tokenize`: split on non-alphanumeric, non-underscore
characters, drop empty tokens, lowercase each token. -/
def rsTokenize (s : String) : List String :=
  ((splitChars isSepChar s.data []).filter (fun l => !l.isEmpty)).map
    (fun l => ⟨l.map Char.toLower⟩)

/-! ## `ast.rs`: grammar resolution, tree serialization, `build_ast`

The external tree-sitter parser is modelled by `ParserOracle`; a parsed tree
is a `TSNode` carrying kind, named-ness, point and byte ranges, the covering
source text (`Node::utf8_text`, which always succeeds on a real tree), and
the ordered child list. -/

instance {ε α : Type _} [DecidableEq ε] [DecidableEq α] :
    DecidableEq (Except ε α) := fun x y => by
  cases x <;> cases y
  · exact decidable_of_iff _ (iff_of_eq (Except.error.injEq _ _)).symm
  · exact .isFalse Except.noConfusion
  · exact .isFalse Except.noConfusion
  · exact decidable_of_iff _ (iff_of_eq (Except.ok.injEq _ _)).symm

/-- A tree-sitter syntax tree node, as observed by the serializer. -/
inductive TSNode where
  | mk : (kind : String) → (named : Bool) → (startPoint endPoint : ℕ × ℕ) →
      (startByte endByte : ℕ) → (text : String) → (children : List TSNode) →
      TSNode

def TSNode.kind : TSNode → String
  | .mk k _ _ _ _ _ _ _ => k

def TSNode.named : TSNode → Bool
  | .mk _ n _ _ _ _ _ _ => n

def TSNode.startPoint : TSNode → ℕ × ℕ
  | .mk _ _ sp _ _ _ _ _ => sp

def TSNode.endPoint : TSNode → ℕ × ℕ
  | .mk _ _ _ ep _ _ _ _ => ep

def TSNode.startByte : TSNode → ℕ
  | .mk _ _ _ _ sb _ _ _ => sb

def TSNode.endByte : TSNode → ℕ
  | .mk _ _ _ _ _ eb _ _ => eb

def TSNode.text : TSNode → String
  | .mk _ _ _ _ _ _ t _ => t

def TSNode.children : TSNode → List TSNode
  | .mk _ _ _ _ _ _ _ cs => cs

mutual

def TSNode.size : TSNode → ℕ
  | .mk _ _ _ _ _ _ _ cs => 1 + TSNode.sizeL cs

def TSNode.sizeL : List TSNode → ℕ
  | [] => 0
  | t :: ts => TSNode.size t + TSNode.sizeL ts

end

def TSNode.one_le_size (n : TSNode) : 1 ≤ n.size := by
  cases n
  rw [TSNode.size]
  omega

def TSNode.sizeL_append (a b : List TSNode) :
    TSNode.sizeL (a ++ b) = TSNode.sizeL a + TSNode.sizeL b := by
  induction a with
  | nil => simp [TSNode.sizeL]
  | cons t ts ih => rw [List.cons_append, TSNode.sizeL, TSNode.sizeL, ih]; omega

def TSNode.sizeL_reverse (a : List TSNode) :
    TSNode.sizeL a.reverse = TSNode.sizeL a := by
  induction a with
  | nil => rfl
  | cons t ts ih =>
    rw [List.reverse_cons, TSNode.sizeL_append, TSNode.sizeL, TSNode.sizeL,
      TSNode.sizeL, ih]
    omega

def TSNode.sizeL_filter_le (p : TSNode → Bool) (a : List TSNode) :
    TSNode.sizeL (a.filter p) ≤ TSNode.sizeL a := by
  induction a with
  | nil => simp [TSNode.sizeL]
  | cons t ts ih =>
    rw [List.filter_cons]
    split
    · rw [TSNode.sizeL, TSNode.sizeL]; omega
    · rw [TSNode.sizeL]
      have := TSNode.one_le_size t
      omega

/-- `ast.rs::AstError`. -/
inductive AstError where
  | unsupportedLanguage : String → AstError
  | languageUnavailable : String → AstError
  | parse : AstError
  | limitExceeded : AstError
deriving DecidableEq

/-- The serialized syntax node of `ast.rs::AstNode` (`start`/`end` positions
are the `(line, column)` pairs). -/
inductive AstNode where
  | mk : (kind : String) → (startPos endPos : ℕ × ℕ) →
      (startByte endByte : ℕ) → (children : List AstNode) →
      (snippet : Option String) → AstNode

def AstNode.kind : AstNode → String
  | .mk k _ _ _ _ _ _ => k

def AstNode.children : AstNode → List AstNode
  | .mk _ _ _ _ _ cs _ => cs

def AstNode.snippet : AstNode → Option String
  | .mk _ _ _ _ _ _ s => s

/-- `ast.rs::AstStatistics`. -/
structure AstStatistics where
  total_nodes : ℕ
  truncated : Bool
deriving DecidableEq

/-- `ast.rs::AstResponse`. -/
structure AstResponse where
  language : String
  root : AstNode
  statistics : AstStatistics

/-- `ast.rs::AstOptions`. -/
structure AstOptions where
  max_depth : ℕ
  max_nodes : ℕ
  include_snippet : Bool

/-- `AstOptions::default()`: `DEFAULT_MAX_DEPTH = 5`,
`DEFAULT_MAX_NODES = 2048`, snippets on. -/
def astOptionsDefault : AstOptions :=
  { max_depth := 5, max_nodes := 2048, include_snippet := true }

/-- The grammars the resolver can produce (`tree_sitter_typescript` etc.). -/
inductive Lang where
  | typescript | tsx | javascript | json | rust
deriving DecidableEq

/-- `ast.rs::language_for_id`: the exact, case-sensitive alias table. -/
def language_for_id (id : String) : Option Lang :=
  if id = "typescript" ∨ id = "ts" then some .typescript
  else if id = "tsx" then some .tsx
  else if id = "javascript" ∨ id = "js" then some .javascript
  else if id = "json" then some .json
  else if id = "rust" ∨ id = "rs" then some .rust
  else none

/-- The external parser: whether a grammar attaches to a parser
(`Parser::set_language`), and what tree `Parser::parse` returns. -/
structure ParserOracle where
  setLanguageOk : Lang → Bool
  parse : Lang → String → Option TSNode

/-- `ast.rs::parse_tree`. -/
def parse_tree (o : ParserOracle) (language_id source : String) :
    Except AstError (TSNode × Lang) :=
  match language_for_id language_id with
  | none => .error (.unsupportedLanguage language_id)
  | some lang =>
    if o.setLanguageOk lang then
      match o.parse lang source with
      | some tree => .ok (tree, lang)
      | none => .error .parse
    else .error (.languageUnavailable language_id)

/-- The snippet computation of `ast.rs::serialize_node` (lines 138-150),
applied to the node's covering text: trim, omit if empty, and return the
first 120 characters with an ellipsis when `snippet.len() > 120` **bytes**. -/
def snippetOf (text : String) : Option String :=
  let s := rsTrim text
  if s.data.isEmpty then none
  else if 120 < byteLen s then some (String.mk (s.data.take 120) ++ "…")
  else some s

/-- The mutable state threaded through `serialize_node`: the shared
remaining-budget counter and `stats.total_nodes`. -/
structure SerState where
  remaining : ℕ
  total : ℕ
deriving DecidableEq

mutual

/-- `ast.rs::serialize_node`. -/
def serializeNode (opts : AstOptions) : TSNode → ℕ → SerState →
    Option AstNode × SerState
  | .mk kind _ sp ep sb eb text cs, depth, st =>
    if st.remaining = 0 then (none, st)
    else
      let st1 : SerState := ⟨st.remaining - 1, st.total + 1⟩
      let snip := if opts.include_snippet then snippetOf text else none
      let res :=
        if depth < opts.max_depth then
          serializeChildren opts cs (depth + 1) st1
        else ([], st1)
      (some (.mk kind sp ep sb eb res.1 snip), res.2)

/-- The child loop of `serialize_node`: skip anonymous nodes, stop when the
budget hits zero mid-loop, push each serialized child. -/
def serializeChildren (opts : AstOptions) : List TSNode → ℕ → SerState →
    List AstNode × SerState
  | [], _, st => ([], st)
  | c :: cs, depth, st =>
    if c.named = false then serializeChildren opts cs depth st
    else if st.remaining = 0 then ([], st)
    else
      match serializeNode opts c depth st with
      | (some a, st') =>
        let rest := serializeChildren opts cs depth st'
        (a :: rest.1, rest.2)
      | (none, st') => serializeChildren opts cs depth st'

end

/-- `ast.rs::build_ast`. -/
def build_ast (o : ParserOracle) (language_id source : String)
    (options : AstOptions) : Except AstError AstResponse :=
  match parse_tree o language_id source with
  | .error e => .error e
  | .ok (tree, _) =>
    match serializeNode options tree 0 ⟨options.max_nodes, 0⟩ with
    | (none, _) => .error .limitExceeded
    | (some root, st) =>
      .ok { language := language_id, root := root,
            statistics := { total_nodes := st.total,
                            truncated := st.remaining == 0 } }

/-! ## `main.rs`: the `/ast` request handler -/

/-- `main.rs::AstRequest` (the deserialized JSON body). -/
structure AstRequest where
  language : String
  source : String
  max_depth : Option ℕ
  max_nodes : Option ℕ
  include_snippet : Option Bool

/-- The options computed by `ast_handler` before calling `build_ast`:
defaults, with caller-supplied `max_depth`/`max_nodes` coerced through
`.max(1)`. -/
def handlerOptions (req : AstRequest) : AstOptions :=
  let o0 := astOptionsDefault
  let o1 := match req.max_depth with
    | some d => { o0 with max_depth := max d 1 }
    | none => o0
  let o2 := match req.max_nodes with
    | some n => { o1 with max_nodes := max n 1 }
    | none => o1
  match req.include_snippet with
  | some b => { o2 with include_snippet := b }
  | none => o2

/-- `thiserror`'s `Display` for `ast.rs::AstError`. -/
def astErrorMessage : AstError → String
  | .unsupportedLanguage l => "unsupported language: " ++ l
  | .languageUnavailable l => "failed to configure parser for language: " ++ l
  | .parse => "failed to parse source"
  | .limitExceeded => "tree serialization limit exceeded"

/-- `main.rs::ast_handler`: build options, call `build_ast`, and map errors
to `(status, body)` pairs (400 for an unsupported language, 500 for the
rest). -/
def ast_handler (o : ParserOracle) (req : AstRequest) :
    Except (ℕ × String) AstResponse :=
  match build_ast o req.language req.source (handlerOptions req) with
  | .ok ast => .ok ast
  | .error (.unsupportedLanguage lang) =>
    .error (400, "unsupported language: " ++ lang)
  | .error e => .error (500, astErrorMessage e)

/-! ## `lsp.rs`: the document session store and the navigation engine

The per-connection `HashMap<Url, Document>` becomes an association list from
URI strings to documents; `insert` replaces any previous binding, `remove`
deletes it.  `descendant_for_point_range(point, point)` is modelled as the
obvious recursive descent into the first child containing the (end-exclusive)
point. -/

/-- `lsp.rs::Document`. -/
structure LspDoc where
  language_id : String
  text : String
  tree : TSNode

/-- The per-connection document map (`HashMap<Url, Document>`). -/
abbrev DocMap : Type := List (String × LspDoc)

/-- `HashMap::get`. -/
def mapGet (m : DocMap) (k : String) : Option LspDoc :=
  (List.find? (fun p => p.1 == k) m).map (fun p => p.2)

/-- `HashMap::insert` (replaces any previous binding of the key). -/
def mapInsert (m : DocMap) (k : String) (v : LspDoc) : DocMap :=
  (k, v) :: List.filter (fun p => !(p.1 == k)) m

/-- `HashMap::remove`. -/
def mapRemove (m : DocMap) (k : String) : DocMap :=
  List.filter (fun p => !(p.1 == k)) m

/-- `lsp.rs::parse_document`. -/
def parse_document (o : ParserOracle) (language_id text : String) :
    Except AstError TSNode :=
  match parse_tree o language_id text with
  | .ok (tree, _) => .ok tree
  | .error e => .error e

/-- The `TextDocumentItem` of a `didOpen` notification. -/
structure TextDocItem where
  uri : String
  language_id : String
  text : String

/-- `lsp_types::TextDocumentContentChangeEvent`. -/
structure ChangeEvent where
  range : Option ((ℕ × ℕ) × (ℕ × ℕ))
  rangeLength : Option ℕ
  text : String

/-- `lsp.rs::Backend::upsert_document` (the `didOpen` path): on parse
success insert the document, on parse failure only log a warning. -/
def upsert_document (o : ParserOracle) (m : DocMap) (item : TextDocItem) :
    DocMap :=
  match parse_document o item.language_id item.text with
  | .ok tree => mapInsert m item.uri ⟨item.language_id, item.text, tree⟩
  | .error _ => m

/-- `lsp.rs::Backend::update_document` (the `didChange` path): take the last
change, treat it as a full replacement (also when a sub-range is given),
re-parse with the stored document's language id; on success replace the
stored document, on failure only log a warning. -/
def update_document (o : ParserOracle) (m : DocMap) (uri : String)
    (changes : List ChangeEvent) : DocMap × Option LspDoc :=
  match changes.getLast? with
  | none => (m, none)
  | some change =>
    let new_text := match change.range, change.rangeLength with
      | none, none => change.text
      | _, _ => change.text  -- partial updates unsupported: full replacement
    match mapGet m uri with
    | none => (m, none)
    | some doc =>
      match parse_document o doc.language_id new_text with
      | .ok tree =>
        let document : LspDoc := ⟨doc.language_id, new_text, tree⟩
        (mapInsert m uri document, some document)
      | .error _ => (m, none)

/-- `lsp.rs::Backend::remove_document` (the `didClose` path). -/
def remove_document (m : DocMap) (uri : String) : DocMap := mapRemove m uri

/-- Lexicographic `≤` on `(row, column)` points. -/
def pointLe (a b : ℕ × ℕ) : Bool :=
  a.1 < b.1 || (a.1 == b.1 && a.2 ≤ b.2)

/-- Lexicographic `<` on `(row, column)` points. -/
def pointLt (a b : ℕ × ℕ) : Bool :=
  a.1 < b.1 || (a.1 == b.1 && a.2 < b.2)

/-- Whether a node's point range contains a point (end exclusive). -/
def nodeContains (n : TSNode) (p : ℕ × ℕ) : Bool :=
  pointLe n.startPoint p && pointLt p n.endPoint

mutual

/-- The descent of `ts_node_descendant_for_point_range` for a degenerate
point range: recurse into the first child containing the point. -/
def descendPoint : TSNode → ℕ × ℕ → TSNode
  | .mk k nm sp ep sb eb tx cs, p =>
    match descendList cs p with
    | some d => d
    | none => .mk k nm sp ep sb eb tx cs

def descendList : List TSNode → ℕ × ℕ → Option TSNode
  | [], _ => none
  | c :: cs, p =>
    if nodeContains c p then some (descendPoint c p) else descendList cs p

end

/-- `lsp.rs::node_at_position`. -/
def node_at_position (doc : LspDoc) (pos : ℕ × ℕ) : Option TSNode :=
  if nodeContains doc.tree pos then some (descendPoint doc.tree pos) else none

/-- `lsp.rs::is_identifier`: the fixed identifier-like kind set. -/
def is_identifier (n : TSNode) : Bool :=
  n.kind == "identifier" || n.kind == "property_identifier" ||
  n.kind == "shorthand_property_identifier" || n.kind == "type_identifier" ||
  n.kind == "predefined_type"

/-- `lsp.rs::identifier_at_position`. -/
def identifier_at_position (doc : LspDoc) (pos : ℕ × ℕ) :
    Option (String × TSNode) :=
  match node_at_position doc pos with
  | none => none
  | some node =>
    let found := if is_identifier node then some node
      else List.find? is_identifier node.children
    match found with
    | none => none
    | some idNode =>
      let text := rsTrim idNode.text
      if text.data.isEmpty then none else some (text, idNode)

/-- An LSP range: start and end `(line, character)` points. -/
abbrev LspRange : Type := (ℕ × ℕ) × (ℕ × ℕ)

/-- `lsp.rs::to_lsp_range`. -/
def to_lsp_range (n : TSNode) : LspRange := (n.startPoint, n.endPoint)

/-- `lsp_types::Location`. -/
structure Location where
  uri : String
  range : LspRange

/-- The declaration kind set of `lsp.rs::looks_like_declaration`. -/
def DECL_KINDS : List String :=
  ["function_declaration", "method_definition", "lexical_declaration",
   "variable_declaration", "variable_declarator", "class_declaration",
   "interface_declaration", "type_alias_declaration", "enum_declaration"]

/-- `lsp.rs::looks_like_declaration`: a declaration-kind node with a named
identifier-like child whose trimmed text equals the queried name. -/
def looks_like_declaration (n : TSNode) (name : String) : Bool :=
  DECL_KINDS.contains n.kind &&
  n.children.any (fun c => c.named && is_identifier c && rsTrim c.text == name)

def TSNode.stack_measure_lt (n : TSNode) (rest : List TSNode) :
    TSNode.sizeL ((List.filter TSNode.named n.children).reverse ++ rest) <
    TSNode.sizeL (n :: rest) := by
  rw [TSNode.sizeL, TSNode.sizeL_append, TSNode.sizeL_reverse]
  have h1 := TSNode.sizeL_filter_le TSNode.named n.children
  have h2 : TSNode.sizeL n.children < TSNode.size n := by
    cases n
    rw [TSNode.size, TSNode.children]
    omega
  omega

/-- The explicit-stack loop of `lsp.rs::find_declaration`: pop, test, push
the named children in source order (so the walk is right-biased). -/
def declLoop (name : String) : List TSNode → Option LspRange
  | [] => none
  | n :: rest =>
    if looks_like_declaration n name then some (to_lsp_range n)
    else declLoop name ((List.filter TSNode.named n.children).reverse ++ rest)
termination_by l => TSNode.sizeL l
decreasing_by
  exact TSNode.stack_measure_lt _ _

/-- `lsp.rs::find_declaration`. -/
def find_declaration (doc : LspDoc) (name : String) : Option LspRange :=
  declLoop name [doc.tree]

/-- The explicit-stack loop of `lsp.rs::find_references`: collect the range
of every identifier-like node whose trimmed text equals the name. -/
def refsLoop (name : String) : List TSNode → List LspRange → List LspRange
  | [], acc => acc
  | n :: rest, acc =>
    let acc' := if is_identifier n && rsTrim n.text == name
      then acc ++ [to_lsp_range n] else acc
    refsLoop name ((List.filter TSNode.named n.children).reverse ++ rest) acc'
termination_by l _ => TSNode.sizeL l
decreasing_by
  exact TSNode.stack_measure_lt _ _

/-- `lsp.rs::find_references`. -/
def find_references (doc : LspDoc) (name : String) : List LspRange :=
  refsLoop name [doc.tree] []

/-- The reference ranges appended by `lsp.rs::references`: every collected
range except the one equal to the originally resolved node's range. -/
def appendedReferenceRanges (doc : LspDoc) (name : String)
    (nodeRange : LspRange) : List LspRange :=
  List.filter (fun r => !(decide (r = nodeRange))) (find_references doc name)

/-- `lsp.rs::Backend::references`: `None` when there is no document or no
identifier at the position; otherwise the optional declaration location
followed by every reference range except the resolved node's own range. -/
def references (m : DocMap) (uri : String) (pos : ℕ × ℕ)
    (include_decl : Bool) : Option (List Location) :=
  match mapGet m uri with
  | none => none
  | some doc =>
    match identifier_at_position doc pos with
    | none => none
    | some (name, node) =>
      let declPart : List Location :=
        if include_decl then
          match find_declaration doc name with
          | some range => [⟨uri, range⟩]
          | none => []
        else []
      some (declPart ++
        (appendedReferenceRanges doc name (to_lsp_range node)).map
          (fun r => ⟨uri, r⟩))

/-! ## `semantic.rs`: the append-only semantic document store

External effects are parameters: the fixed-seed `xxh3` token hash is
`hashFn : String → ℕ` (a `u64` value), `Uuid::new_v4()` is a supplied fresh
id (`ℕ`), `Utc::now()` a supplied timestamp (`ℤ`).  The
`HashMap<String, Vec<usize>>` path index becomes a point-wise-updated
function `String → List ℕ`. -/

/-- `semantic.rs::EMBEDDING_DIM`. -/
def EMBEDDING_DIM : ℕ := 256

/-- The per-token magnitude of `semantic.rs::embed_text`, line 163:
`(hash as f32 % 997.0) / 997.0` — the `u64` hash is cast to `f32` (rounding
to 24-bit precision) *before* the remainder is taken. -/
def embedMagnitude (hash : ℕ) : ℚ := fdiv (frem (u64ToF32 hash) 997) 997

/-- One iteration of the token loop of `embed_text`:
`vector[hash % EMBEDDING_DIM] += magnitude`. -/
def embedStep (hashFn : String → ℕ) (v : List ℚ) (token : String) : List ℚ :=
  let hash := hashFn token
  let bucket := hash % EMBEDDING_DIM
  v.set bucket (fadd (v.getD bucket 0) (embedMagnitude hash))

/-- `vector.iter().map(|v| v * v).sum::<f32>()` of `semantic.rs::normalize`. -/
def sumSqF (v : List ℚ) : ℚ := (v.map (fun x => fmul x x)).foldl fadd 0

/-- `semantic.rs::normalize` (Mathlib already owns the name `normalize`):
leave the vector untouched when the sum of squares is zero, else divide each
component by the square root of the sum of squares. -/
def normalizeVec (v : List ℚ) : List ℚ :=
  let sum_sq := sumSqF v
  if sum_sq = 0 then v
  else v.map (fun x => fdiv x (fsqrt sum_sq))

/-- `semantic.rs::embed_text`. -/
def embed_text (hashFn : String → ℕ) (text : String) : List ℚ :=
  let vector := List.replicate EMBEDDING_DIM (0:ℚ)
  if (rsTrim text).data.isEmpty then vector
  else normalizeVec ((rsTokenize text).foldl (embedStep hashFn) vector)

/-- `a.iter().zip(b).map(|(x, y)| x * y).sum()`. -/
def dotF32 (a b : List ℚ) : ℚ :=
  ((a.zip b).map (fun p => fmul p.1 p.2)).foldl fadd 0

/-- `semantic.rs::cosine_similarity`: the dot product clamped to [-1, 1]. -/
def cosine_similarity (a b : List ℚ) : ℚ := fclamp (dotF32 a b) (-1) 1

/-- `semantic.rs::snippet`: trimmed content, verbatim when at most 160
bytes, else the first 157 characters plus an ellipsis. -/
def snippet160 (content : String) : String :=
  let trimmed := rsTrim content
  if byteLen trimmed ≤ 160 then trimmed
  else String.mk (trimmed.data.take 157) ++ "…"

/-- `semantic.rs::DocumentRecord` (ids are `ℕ`, timestamps `ℤ`). -/
structure DocumentRecord where
  id : ℕ
  path : String
  content : String
  embedding : List ℚ
  commit_id : Option String
  timestamp : ℤ
deriving DecidableEq

/-- `semantic.rs::SemanticIndex`. -/
structure SemanticIndex where
  documents : List DocumentRecord
  by_path : String → List ℕ

/-- `SemanticIndex::default()`. -/
def emptyIndex : SemanticIndex := ⟨[], fun _ => []⟩

/-- `semantic.rs::AddDocumentRequest`. -/
structure AddDocumentRequest where
  path : String
  content : String
  commit_id : Option String
  timestamp : Option ℤ

/-- The `DocumentRecord` built by `semantic.rs::SemanticStore::add_document`
(factored out so the invariant proofs can name it). -/
def mkDocumentRecord (hashFn : String → ℕ) (freshId : ℕ) (now : ℤ)
    (request : AddDocumentRequest) : DocumentRecord :=
  ⟨freshId, request.path, request.content, embed_text hashFn request.content,
    request.commit_id, request.timestamp.getD now⟩

/-- `semantic.rs::SemanticStore::add_document`: embed, build the record
(with the supplied fresh id and clock), append the new record's position to
its path's history list, append the record. -/
def add_document (hashFn : String → ℕ) (freshId : ℕ) (now : ℤ)
    (st : SemanticIndex) (request : AddDocumentRequest) :
    SemanticIndex × ℕ × ℕ :=
  let record := mkDocumentRecord hashFn freshId now request
  let index := st.documents.length
  let by_path' := fun p =>
    if p = request.path then st.by_path p ++ [index] else st.by_path p
  (⟨st.documents ++ [record], by_path'⟩, freshId, EMBEDDING_DIM)

/-- `semantic.rs::HistoryEntry`. -/
structure HistoryEntry where
  document_id : ℕ
  commit_id : Option String
  timestamp : ℤ
deriving DecidableEq

/-- `semantic.rs::SemanticStore::history_for_path`. -/
def history_for_path (st : SemanticIndex) (path : String) :
    List HistoryEntry :=
  ((st.by_path path).filterMap (fun index => st.documents.get? index)).map
    (fun record => ⟨record.id, record.commit_id, record.timestamp⟩)

/-- `semantic.rs::SearchRequest` (`path_pre` is the source's `path_prefix`
field). -/
structure SearchRequest where
  query : String
  top_k : ℕ
  path_pre : Option String
  commit_id : Option String

/-- `semantic.rs::SearchResult`. -/
structure SearchResult where
  document_id : ℕ
  path : String
  score : ℚ
  snippet : String
  commit_id : Option String
  timestamp : ℤ
deriving DecidableEq

/-- The filter-and-score pass of `semantic.rs::SemanticStore::search`
(before sorting and truncation). -/
def searchCandidates (hashFn : String → ℕ) (st : SemanticIndex)
    (req : SearchRequest) : List SearchResult :=
  let query_embedding := embed_text hashFn req.query
  ((st.documents.filter (fun record =>
      match req.path_pre with
      | some p => record.path.startsWith p
      | none => true)).filter (fun record =>
      match req.commit_id with
      | some commit => record.commit_id == some commit
      | none => true)).map (fun record =>
    ⟨record.id, record.path,
      cosine_similarity query_embedding record.embedding,
      snippet160 record.content, record.commit_id, record.timestamp⟩)

/-- The comparator of `results.sort_by(|a, b| b.score.total_cmp(&a.score))`
as a `≤`-style boolean relation: `a` may stay before `b` iff
`b.score ≤ a.score`.  (On the modelled values `total_cmp` is the ordinary
order: `NaN` and negative zero do not arise.) -/
def scoreDescLe (a b : SearchResult) : Bool := decide (b.score ≤ a.score)

/-- `semantic.rs::SemanticStore::search`: filter, score, stable-sort by
descending score, truncate to `top_k`. -/
def search (hashFn : String → ℕ) (st : SemanticIndex) (req : SearchRequest) :
    List SearchResult :=
  ((searchCandidates hashFn st req).mergeSort scoreDescLe).take req.top_k

/-- A semantic store reachable from the empty store by a sequence of
`add_document` calls (each with its externally supplied fresh id and
clock value). -/
def applyAdds (hashFn : String → ℕ)
    (ops : List (ℕ × ℤ × AddDocumentRequest)) (st : SemanticIndex) :
    SemanticIndex :=
  ops.foldl (fun s op => (add_document hashFn op.1 op.2.1 s op.2.2).1) st

/-! ## Arithmetic facts about the `f32` model -/

/-! ## Claim C3: the embedding magnitude -/

/-- The pre-normalization accumulation pass of `embed_text` (the state of
`vector` after the token loop). -/
def embedAccum (hashFn : String → ℕ) (text : String) : List ℚ :=
  (rsTokenize text).foldl (embedStep hashFn) (List.replicate EMBEDDING_DIM 0)

/-- The magnitude as the claim words it: exact integer remainder
`h mod 997`, then divided by `997.0`. -/
def claimMagnitude (hash : ℕ) : ℚ := fdiv ((hash % 997 : ℕ) : ℚ) 997

/-- The token step as the claim words it. -/
def claimEmbedStep (hashFn : String → ℕ) (v : List ℚ) (token : String) :
    List ℚ :=
  let hash := hashFn token
  let bucket := hash % EMBEDDING_DIM
  v.set bucket (fadd (v.getD bucket 0) (claimMagnitude hash))

/-- The accumulation pass as the claim words it. -/
def claimEmbedAccum (hashFn : String → ℕ) (text : String) : List ℚ :=
  (rsTokenize text).foldl (claimEmbedStep hashFn) (List.replicate EMBEDDING_DIM 0)

/-- Claim C3 as stated: for every 64-bit token hash function and text, the
token loop adds the magnitude `(h mod 997) / 997` (exact integer remainder)
into bucket `h mod 256`, and the embedding is the L2 normalization of the
accumulated vector. -/
def ClaimC3 : Prop :=
  ∀ hashFn : String → ℕ, (∀ t, hashFn t < 2 ^ 64) → ∀ text : String,
    embedAccum hashFn text = claimEmbedAccum hashFn text ∧
    embed_text hashFn text =
      (if (rsTrim text).data.isEmpty then List.replicate EMBEDDING_DIM 0
       else normalizeVec (embedAccum hashFn text))

/-- A 64-bit hash whose `f32` rounding loses the low bit: `2 ^ 32 + 1`
rounds to `2 ^ 32`, so the code's magnitude uses the remainder
`2 ^ 32 mod 997 = 966` instead of `(2 ^ 32 + 1) mod 997 = 967`. -/
def hashFnC3 : String → ℕ := fun t => if t = "a" then 2 ^ 32 + 1 else 2

/-! ## Claim C9: `embed_text` is total and never divides by zero -/

/-! ## Claim C5: parse failures leave the session state untouched -/

/-- A parser oracle that always fails to produce a tree, and a stored
document for the update witness. -/
def failingOracle : ParserOracle := ⟨fun _ => true, fun _ _ => none⟩

def witnessDocC5 : LspDoc := ⟨"json", "old", .mk "document" true (0,0) (0,0) 0 0 "" []⟩

/-! ## Claim C6: reference results exclude the queried node's range -/

/-- A two-occurrence document for the C6 witness: a program node containing
two `identifier` nodes with the same text `"x"`. -/
def witnessId1C6 : TSNode := .mk "identifier" true (0,0) (0,1) 0 1 "x" []

def witnessId2C6 : TSNode := .mk "identifier" true (1,0) (1,1) 2 3 "x" []

def witnessDocC6 : LspDoc :=
  ⟨"typescript", "x\nx", .mk "program" true (0,0) (1,5) 0 5 "x\nx"
    [witnessId1C6, witnessId2C6]⟩

/-! ## Claim C7: exact-path history in insertion order -/

/-- The store invariant maintained by `add_document`: for every path, the
path-index entries are in range and project, in order, to exactly the
records whose path equals that path. -/
def StoreInv (st : SemanticIndex) : Prop :=
  ∀ p, (∀ i ∈ st.by_path p, i < st.documents.length) ∧
    (st.by_path p).filterMap (fun i => st.documents.get? i) =
      st.documents.filter (fun r => r.path = p)

/-! ## Claim C8: search scoring, stable descending sort, truncation -/

def witnessRec1C8 : DocumentRecord := ⟨1, "p1", "c1", [], none, 0⟩

def witnessRec2C8 : DocumentRecord := ⟨2, "p2", "c2", [], none, 0⟩

def witnessStoreC8 : SemanticIndex :=
  ⟨[witnessRec1C8, witnessRec2C8], fun _ => []⟩

def witnessReqC8 : SearchRequest := ⟨"", 5, none, none⟩

def witnessRes1C8 : SearchResult := ⟨1, "p1", 0, "c1", none, 0⟩

def witnessRes2C8 : SearchResult := ⟨2, "p2", 0, "c2", none, 0⟩

/-! ## Claims C1 and C2: `build_ast` budget behaviour -/

/-- Claim C1 as stated: `max_nodes == 0` yields `LimitExceeded` for *every*
source and language identifier, and `LimitExceeded` occurs only when the
budget was exhausted before the root. -/
def ClaimC1 : Prop :=
  (∀ (o : ParserOracle) (id src : String) (opts : AstOptions),
    opts.max_nodes = 0 → build_ast o id src opts = .error .limitExceeded) ∧
  (∀ (o : ParserOracle) (id src : String) (opts : AstOptions),
    build_ast o id src opts = .error .limitExceeded → opts.max_nodes = 0)

/-- The root node returned by the parser stub used in several witnesses. -/
def bareRootNode : TSNode := .mk "document" true (0,0) (0,0) 0 0 "" []

/-- A parser oracle whose grammars always attach and that parses any source
to a bare root node. -/
def bareOracle : ParserOracle := ⟨fun _ => true, fun _ _ => some bareRootNode⟩

/-- Claim C2 as stated: for a supported language whose parse of the empty
source yields a childless root, any `max_nodes ≥ 1` gives a successful
response with `total_nodes = 1` and `truncated = false`. -/
def ClaimC2 : Prop :=
  ∀ (o : ParserOracle) (id : String) (opts : AstOptions) (lang : Lang)
    (root : TSNode),
    language_for_id id = some lang → o.setLanguageOk lang = true →
    o.parse lang "" = some root → root.children = [] →
    1 ≤ opts.max_nodes →
    ∃ resp, build_ast o id "" opts = .ok resp ∧
      resp.statistics.total_nodes = 1 ∧ resp.statistics.truncated = false

/-! ## Claim C4: the snippet field of serialized nodes -/

/-- The snippet computation as claim C4 words it: omitted exactly when the
trimmed text is empty, otherwise at most 120 characters with an ellipsis
appended if and only if the trimmed text exceeded 120 *characters*. -/
def claimSnippetSpec (text : String) : Option String :=
  let s := rsTrim text
  if s.data.isEmpty then none
  else if s.data.length ≤ 120 then some s
  else some (String.mk (s.data.take 120) ++ "…")

/-- Claim C4 as stated: every node serialized with snippets enabled carries
`claimSnippetSpec` of its covering text. -/
def ClaimC4 : Prop :=
  (∀ text : String, snippetOf text = claimSnippetSpec text) ∧
  (∀ (opts : AstOptions) (n : TSNode) (depth : ℕ) (st : SerState)
    (a : AstNode) (st2 : SerState), opts.include_snippet = true →
    serializeNode opts n depth st = (some a, st2) →
    a.snippet = snippetOf n.text)

/-- Sixty-one copies of a two-byte character: 61 characters, 122 bytes. -/
def multibyteText : String := "ééééééééééééééééééééééééééééééééééééééééééééééééééééééééééééé"

/-- The amended snippet specification: the ellipsis is appended if and only
if the trimmed text's UTF-8 *byte* length exceeds 120 (so it can appear on
texts of at most 120 characters); the kept text is the first 120
characters. -/
def amendedSnippetSpec (text : String) : Option String :=
  let s := rsTrim text
  if s.data.isEmpty then none
  else if byteLen s ≤ 120 then some s
  else some (String.mk (s.data.take 120) ++ "…")

/-! ## Claim C10: the `/ast` handler's option coercion -/

/-- Claim C10 as stated: the handler coerces supplied `max_depth` and
`max_nodes` to at least one, a request with `max_nodes == 0` never yields
`LimitExceeded`, and a request with `max_depth == 0` never produces a
childless-root-only response. -/
def ClaimC10 : Prop :=
  ∀ (o : ParserOracle) (req : AstRequest),
    (∀ d, req.max_depth = some d → 1 ≤ (handlerOptions req).max_depth) ∧
    (∀ n, req.max_nodes = some n → 1 ≤ (handlerOptions req).max_nodes) ∧
    (req.max_nodes = some 0 →
      ast_handler o req ≠ .error (500, astErrorMessage .limitExceeded)) ∧
    (req.max_depth = some 0 → ∀ resp, ast_handler o req = .ok resp →
      resp.root.children ≠ [])

/-- A parser oracle producing a root with one named child, for the C10
witness. -/
def childTreeC10 : TSNode :=
  .mk "program" true (0,0) (0,1) 0 1 "x"
    [.mk "identifier" true (0,0) (0,1) 0 1 "x" []]

def childOracleC10 : ParserOracle := ⟨fun _ => true, fun _ _ => some childTreeC10⟩

def reqC10 : AstRequest := ⟨"ts", "x", some 0, some 5, some true⟩

/-! ## Theorems -/

theorem rne_intCast (n : ℤ) : rne (n : ℚ) = n := by
  simp [rne]

theorem floor_le_rne (x : ℚ) : ⌊x⌋ ≤ rne x := by
  unfold rne
  dsimp only
  split
  · exact le_refl _
  · split
    · exact le_of_lt (lt_add_one _)
    · split
      · exact le_refl _
      · exact le_of_lt (lt_add_one _)

theorem rne_le_floor_add_one (x : ℚ) : rne x ≤ ⌊x⌋ + 1 := by
  unfold rne
  dsimp only
  split
  · exact le_of_lt (lt_add_one _)
  · split
    · exact le_refl _
    · split
      · exact le_of_lt (lt_add_one _)
      · exact le_refl _

theorem rne_nonneg {x : ℚ} (hx : 0 ≤ x) : 0 ≤ rne x :=
  le_trans (Int.floor_nonneg.mpr hx) (floor_le_rne x)

theorem elog2_spec : ∀ f n, 1 ≤ n → n ≤ 2 ^ f →
    2 ^ elog2 f n ≤ n ∧ n < 2 ^ (elog2 f n + 1) := by
  intro f
  induction f with
  | zero =>
    intro n h1 h2
    simp only [pow_zero] at h2
    have : n = 1 := le_antisymm h2 h1
    subst this
    simp [elog2]
  | succ f ih =>
    intro n h1 h2
    by_cases hn : n ≤ 1
    · have : n = 1 := le_antisymm hn h1
      subst this
      simp [elog2]
    · push_neg at hn
      rw [pow_succ] at h2
      have h2' : n / 2 ≤ 2 ^ f := by omega
      have h1' : 1 ≤ n / 2 := by omega
      have hrec := ih (n / 2) h1' h2'
      simp only [elog2, if_neg (by omega : ¬ n ≤ 1)]
      have p1 : (2:ℕ) ^ (elog2 f (n / 2) + 1) = 2 ^ elog2 f (n / 2) * 2 :=
        pow_succ 2 _
      have p2 : (2:ℕ) ^ (elog2 f (n / 2) + 1 + 1) =
          2 ^ (elog2 f (n / 2) + 1) * 2 := pow_succ 2 _
      omega

theorem natLog2_spec {n : ℕ} (h : 1 ≤ n) :
    2 ^ natLog2 n ≤ n ∧ n < 2 ^ (natLog2 n + 1) :=
  elog2_spec n n h (le_of_lt n.lt_two_pow)

theorem zpow_natSub (i j : ℕ) : (2:ℚ) ^ ((i : ℤ) - j) = 2 ^ i / 2 ^ j := by
  rw [zpow_sub₀ (two_ne_zero), zpow_natCast, zpow_natCast]

theorem abs_eq_natAbs_div_den (q : ℚ) :
    |q| = (q.num.natAbs : ℚ) / (q.den : ℚ) := by
  have hden : (0:ℚ) < (q.den : ℚ) := by exact_mod_cast q.pos
  conv_lhs => rw [← Rat.num_div_den q]
  rw [abs_div, Int.cast_natAbs, Int.cast_abs, abs_of_pos hden]

theorem qexp_spec {q : ℚ} (hq : q ≠ 0) :
    (2:ℚ) ^ qexp q ≤ |q| ∧ |q| < 2 ^ (qexp q + 1) := by
  have hn : 1 ≤ q.num.natAbs := by
    have : q.num ≠ 0 := Rat.num_ne_zero.mpr hq
    omega
  have hd : 1 ≤ q.den := q.pos
  obtain ⟨hA1, hA2⟩ := natLog2_spec hn
  obtain ⟨hB1, hB2⟩ := natLog2_spec hd
  have habs : |q| = (q.num.natAbs : ℚ) / (q.den : ℚ) := abs_eq_natAbs_div_den q
  have hdQ : (0:ℚ) < (q.den : ℚ) := by exact_mod_cast hd
  have h2B : (0:ℚ) < (2:ℚ) ^ natLog2 q.den := by positivity
  rw [qexp]
  split
  · rename_i hcase
    constructor
    · rw [habs, zpow_natSub, div_le_div_iff₀ h2B hdQ, mul_comm]
      exact_mod_cast hcase
    · rw [habs]
      have he : ((natLog2 q.num.natAbs : ℤ) - natLog2 q.den) + 1 =
          ((natLog2 q.num.natAbs + 1 : ℕ) : ℤ) - natLog2 q.den := by
        push_cast; ring
      rw [he, zpow_natSub, div_lt_div_iff₀ hdQ h2B]
      have s1 : (q.num.natAbs : ℚ) * 2 ^ natLog2 q.den <
          (2:ℚ) ^ (natLog2 q.num.natAbs + 1) * 2 ^ natLog2 q.den := by
        have : ((q.num.natAbs : ℚ)) < (2:ℚ) ^ (natLog2 q.num.natAbs + 1) := by
          exact_mod_cast hA2
        exact (mul_lt_mul_right h2B).mpr this
      have s2 : (2:ℚ) ^ (natLog2 q.num.natAbs + 1) * 2 ^ natLog2 q.den ≤
          (2:ℚ) ^ (natLog2 q.num.natAbs + 1) * q.den := by
        have : ((2:ℚ) ^ natLog2 q.den) ≤ (q.den : ℚ) := by exact_mod_cast hB1
        exact mul_le_mul_of_nonneg_left this (by positivity)
      exact lt_of_lt_of_le s1 s2
  · rename_i hcase
    push_neg at hcase
    constructor
    · rw [habs]
      have he : (natLog2 q.num.natAbs : ℤ) - natLog2 q.den - 1 =
          (natLog2 q.num.natAbs : ℤ) - ((natLog2 q.den + 1 : ℕ) : ℤ) := by
        push_cast; ring
      rw [he, zpow_natSub, div_le_div_iff₀ (by positivity) hdQ]
      have s1 : (2:ℚ) ^ natLog2 q.num.natAbs * q.den ≤
          (2:ℚ) ^ natLog2 q.num.natAbs * 2 ^ (natLog2 q.den + 1) := by
        have : ((q.den : ℚ)) ≤ (2:ℚ) ^ (natLog2 q.den + 1) := by
          exact_mod_cast le_of_lt hB2
        exact mul_le_mul_of_nonneg_left this (by positivity)
      have s2 : (2:ℚ) ^ natLog2 q.num.natAbs * 2 ^ (natLog2 q.den + 1) ≤
          (q.num.natAbs : ℚ) * 2 ^ (natLog2 q.den + 1) := by
        have : ((2:ℚ) ^ natLog2 q.num.natAbs) ≤ ((q.num.natAbs : ℚ)) := by
          exact_mod_cast hA1
        exact mul_le_mul_of_nonneg_right this (by positivity)
      exact le_trans s1 s2
    · rw [habs]
      have he : (natLog2 q.num.natAbs : ℤ) - natLog2 q.den - 1 + 1 =
          (natLog2 q.num.natAbs : ℤ) - natLog2 q.den := by ring
      rw [he, zpow_natSub, div_lt_div_iff₀ hdQ h2B,
        mul_comm ((2:ℚ) ^ natLog2 q.num.natAbs) (q.den : ℚ)]
      exact_mod_cast hcase

theorem qpow2_eq (e : ℤ) : qpow2 e = (2:ℚ) ^ e := by
  unfold qpow2
  split
  · rename_i h
    rw [Nat.cast_pow, ← zpow_natCast, Int.toNat_of_nonneg h]
    norm_num
  · rename_i h
    have he : e = -(((-e).toNat : ℕ) : ℤ) := by omega
    rw [Nat.cast_pow, one_div, he, zpow_neg, zpow_natCast]
    norm_num
    omega

theorem qpow2_pos (e : ℤ) : 0 < qpow2 e := by
  rw [qpow2_eq]; positivity

theorem fround_zero : fround 0 = 0 := by simp [fround]

theorem qexp_le_self {q : ℚ} (hq : 0 < q) : (2:ℚ) ^ qexp q ≤ q := by
  have := (qexp_spec (ne_of_gt hq)).1
  rwa [abs_of_pos hq] at this

theorem fround_nonneg {q : ℚ} (hq : 0 ≤ q) : 0 ≤ fround q := by
  rcases eq_or_lt_of_le hq with h | h
  · rw [← h, fround_zero]
  · rw [fround, if_neg (ne_of_gt h)]
    have hg : (0:ℚ) < qpow2 (qexp q - 23) := qpow2_pos _
    have : (0:ℚ) ≤ rne (q / qpow2 (qexp q - 23)) := by
      exact_mod_cast rne_nonneg (le_of_lt (div_pos h hg))
    positivity

theorem fround_pos {q : ℚ} (hq : 0 < q) : 0 < fround q := by
  rw [fround, if_neg (ne_of_gt hq)]
  set g : ℚ := qpow2 (qexp q - 23) with hg_def
  have hg : (0:ℚ) < g := qpow2_pos _
  have hq' : (2:ℚ) ^ qexp q ≤ q := qexp_le_self hq
  have hbig : (1:ℚ) ≤ q / g := by
    rw [le_div_iff₀ hg, one_mul, hg_def, qpow2_eq]
    calc (2:ℚ) ^ (qexp q - 23) ≤ 2 ^ qexp q := by
          apply zpow_le_zpow_right₀ (by norm_num) (by omega)
      _ ≤ q := hq'
  have h1 : (1:ℤ) ≤ ⌊q / g⌋ := by
    exact_mod_cast Int.le_floor.mpr (by exact_mod_cast hbig)
  have : (1:ℤ) ≤ rne (q / g) := le_trans h1 (floor_le_rne _)
  have : (1:ℚ) ≤ (rne (q / g) : ℚ) := by exact_mod_cast this
  calc (0:ℚ) < g * 1 := by linarith
    _ ≤ g * rne (q / g) := by
      exact mul_le_mul_of_nonneg_left (by linarith) (le_of_lt hg)

theorem fround_neg_of_neg {q : ℚ} (hq : q < 0) : fround q < 0 := by
  rw [fround, if_neg (ne_of_lt hq)]
  set g : ℚ := qpow2 (qexp q - 23) with hg_def
  have hg : (0:ℚ) < g := qpow2_pos _
  have hq' : (2:ℚ) ^ qexp q ≤ |q| := (qexp_spec (ne_of_lt hq)).1
  rw [abs_of_neg hq] at hq'
  have hsmall : q / g ≤ -1 := by
    rw [div_le_iff₀ hg, neg_one_mul, le_neg, hg_def, qpow2_eq]
    calc (2:ℚ) ^ (qexp q - 23) ≤ 2 ^ qexp q := by
          apply zpow_le_zpow_right₀ (by norm_num) (by omega)
      _ ≤ -q := hq'
  have hfl : ⌊q / g⌋ ≤ -1 := by
    have h1 : ⌊q / g⌋ ≤ ⌊(-1 : ℚ)⌋ := Int.floor_le_floor hsmall
    have h2 : ⌊(-1 : ℚ)⌋ = -1 := by norm_num
    omega
  have hr : rne (q / g) ≤ 0 := by
    have := rne_le_floor_add_one (q / g)
    omega
  rcases eq_or_lt_of_le hr with h0 | hneg
  · exfalso
    -- rne (q/g) = 0 would force ⌊q/g⌋ = -1 and then q/g = -1 exactly,
    -- but rne (-1) = -1, a contradiction.
    have hfl' : ⌊q / g⌋ = -1 := by
      have := rne_le_floor_add_one (q / g)
      omega
    have : q / g = -1 := by
      have h1 : (q / g : ℚ) ≤ -1 := hsmall
      have h2 : (-1 : ℚ) ≤ q / g := by
        have := Int.floor_le (q / g)
        rw [hfl'] at this
        exact_mod_cast this
      linarith
    rw [this] at h0
    have : rne (-1 : ℚ) = -1 := by
      have := rne_intCast (-1)
      simpa using this
    omega
  · have : (rne (q / g) : ℚ) < 0 := by exact_mod_cast hneg
    calc g * (rne (q / g) : ℚ) < g * 0 := by
          exact mul_lt_mul_of_pos_left this hg
      _ = 0 := by ring

theorem fround_eq_zero_iff {q : ℚ} : fround q = 0 ↔ q = 0 := by
  constructor
  · intro h
    by_contra hq
    rcases lt_trichotomy q 0 with hlt | heq | hgt
    · exact absurd h (ne_of_lt (fround_neg_of_neg hlt))
    · exact hq heq
    · exact absurd h (ne_of_gt (fround_pos hgt))
  · intro h; rw [h, fround_zero]

theorem natLog2_one : natLog2 1 = 0 := rfl

theorem qexp_natCast {h : ℕ} (h1 : 1 ≤ h) : qexp (h : ℚ) = natLog2 h := by
  have hnum : ((h : ℚ)).num = (h : ℤ) := Rat.num_natCast h
  have hden : ((h : ℚ)).den = 1 := Rat.den_natCast h
  rw [qexp, hnum, hden]
  simp only [Int.natAbs_ofNat, natLog2_one, pow_zero, one_mul, mul_one]
  rw [if_pos (natLog2_spec h1).1]
  omega

theorem fround_natCast_of_lt {h : ℕ} (hlt : h < 2 ^ 24) :
    fround (h : ℚ) = (h : ℚ) := by
  rcases Nat.eq_zero_or_pos h with h0 | h1
  · subst h0
    simpa using fround_zero
  · have hA := qexp_natCast h1
    have hA23 : natLog2 h ≤ 23 := by
      have hspec := (natLog2_spec h1).1
      by_contra hgt
      push_neg at hgt
      have : 2 ^ 24 ≤ 2 ^ natLog2 h := Nat.pow_le_pow_right (by norm_num) hgt
      omega
    have hq0 : (h : ℚ) ≠ 0 := Nat.cast_ne_zero.mpr h1.ne'
    rw [fround, if_neg hq0, hA]
    show qpow2 ((natLog2 h : ℤ) - 23) *
        rne ((h : ℚ) / qpow2 ((natLog2 h : ℤ) - 23)) = (h : ℚ)
    set m : ℕ := h * 2 ^ (23 - natLog2 h) with hm_def
    have hdivm : (h : ℚ) / qpow2 ((natLog2 h : ℤ) - 23) = (m : ℚ) := by
      rw [qpow2_eq, hm_def]
      push_cast
      rw [div_eq_mul_inv, ← zpow_neg, neg_sub]
      have h23a : ((23 : ℤ) - natLog2 h) = ((23 - natLog2 h : ℕ) : ℤ) := by
        omega
      rw [h23a, zpow_natCast]
      try norm_num
    rw [hdivm]
    have hrne : rne (m : ℚ) = (m : ℤ) := by
      have : ((m : ℤ) : ℚ) = (m : ℚ) := by push_cast; rfl
      rw [← this, rne_intCast]
    rw [hrne, qpow2_eq]
    push_cast [hm_def]
    rw [mul_comm ((2:ℚ) ^ ((natLog2 h : ℤ) - 23)), mul_assoc]
    have h23 : ((23 : ℤ) - natLog2 h) = ((23 - natLog2 h : ℕ) : ℤ) := by omega
    rw [← zpow_natCast (2:ℚ) (23 - natLog2 h), ← h23, ← zpow_add₀ (two_ne_zero)]
    norm_num

theorem qtrunc_natCast_div (a b : ℕ) :
    qtrunc ((a : ℚ) / (b : ℚ)) = ((a / b : ℕ) : ℤ) := by
  rw [qtrunc, if_pos (by positivity), Rat.floor_natCast_div_natCast]
  push_cast
  rfl

theorem frem_natCast (a b : ℕ) :
    frem (a : ℚ) (b : ℚ) = ((a % b : ℕ) : ℚ) := by
  rw [frem, qtrunc_natCast_div]
  have hmod : b * (a / b) + a % b = a := Nat.div_add_mod a b
  have hq : (b : ℚ) * ((a / b : ℕ) : ℚ) + ((a % b : ℕ) : ℚ) = (a : ℚ) := by
    exact_mod_cast congrArg (fun n : ℕ => (n : ℚ)) hmod
  have hcast : (((a / b : ℕ) : ℤ) : ℚ) = ((a / b : ℕ) : ℚ) := by
    push_cast
    rfl
  rw [hcast]
  linarith

/-- For hashes below `2 ^ 24` the cast to `f32` is exact, so the magnitude
agrees with the exact integer remainder. -/
theorem embedMagnitude_small {h : ℕ} (hlt : h < 2 ^ 24) :
    embedMagnitude h = fdiv ((h % 997 : ℕ) : ℚ) 997 := by
  rw [embedMagnitude, u64ToF32, fround_natCast_of_lt hlt]
  have h997 : ((997 : ℕ) : ℚ) = (997 : ℚ) := by norm_num
  rw [← h997, frem_natCast]

/-- Claim C3 is false on the code: `semantic.rs` line 163 computes
`(hash as f32 % 997.0)`, casting the full 64-bit hash to `f32` *before*
taking the remainder, so any hash not exactly representable in 24 bits uses
a different remainder than `hash mod 997`. -/
theorem embed_magnitude_counterexample : ¬ ClaimC3 := by
  intro hclaim
  have hbound : ∀ t, hashFnC3 t < 2 ^ 64 := by
    intro t
    simp only [hashFnC3]
    split
    · decide
    · decide
  have h1 := (hclaim hashFnC3 hbound "a b").1
  have h2 := congrArg (fun l => l.get? 1) h1
  revert h2
  decide

/-- Claim C3 amended: the magnitude added for a token with hash `h` is
`((h as f32) mod 997) / 997` — the hash is first rounded to `f32`'s 24-bit
precision; for `h < 2 ^ 24` this agrees with the stated exact remainder
`(h mod 997) / 997`.  Bucket choice, accumulation and final normalization
are as the claim states. -/
theorem embed_text_magnitude_characterization :
    ∀ hashFn : String → ℕ, (∀ t, hashFn t < 2 ^ 64) → ∀ text : String,
      (∀ h : ℕ, embedMagnitude h = fdiv (frem (fround (h : ℚ)) 997) 997) ∧
      embed_text hashFn text =
        (if (rsTrim text).data.isEmpty then List.replicate EMBEDDING_DIM 0
         else normalizeVec (embedAccum hashFn text)) ∧
      (∀ h : ℕ, h < 2 ^ 24 → embedMagnitude h = claimMagnitude h) := by
  intro hashFn _ text
  refine ⟨fun h => rfl, rfl, fun h hlt => ?_⟩
  rw [claimMagnitude, embedMagnitude_small hlt]

/-- Witness for the amended C3 at concrete inputs. -/
theorem embed_text_magnitude_characterization_witness :
    (∀ t : String, (fun _ : String => (5:ℕ)) t < 2 ^ 64) ∧
    embedMagnitude 5 = claimMagnitude 5 := by
  refine ⟨fun t => (by decide : (5:ℕ) < 2 ^ 64), ?_⟩
  exact (embed_text_magnitude_characterization (fun _ => 5)
    (fun t => (by decide : (5:ℕ) < 2 ^ 64)) "x").2.2 5 (by decide)

/-- If a left fold of `f32` additions of non-negative values is zero, the
start and every summand were zero (the `f32` rounding of a non-zero value is
never zero in the modelled range). -/
theorem foldl_fadd_eq_zero : ∀ (l : List ℚ) (a : ℚ), 0 ≤ a →
    (∀ x ∈ l, 0 ≤ x) → l.foldl fadd a = 0 → a = 0 ∧ ∀ x ∈ l, x = 0 := by
  intro l
  induction l with
  | nil =>
    intro a _ _ h
    exact ⟨h, by simp⟩
  | cons x xs ih =>
    intro a ha hall h
    have hx : 0 ≤ x := hall x (List.mem_cons_self x xs)
    have hax : 0 ≤ fadd a x := fround_nonneg (by linarith)
    have hrest := ih (fadd a x) hax
      (fun y hy => hall y (List.mem_cons_of_mem _ hy))
      (by simpa [List.foldl_cons] using h)
    obtain ⟨h1, h2⟩ := hrest
    have hsum : a + x = 0 := fround_eq_zero_iff.mp h1
    refine ⟨by linarith, fun y hy => ?_⟩
    rcases List.mem_cons.mp hy with rfl | hy'
    · linarith
    · exact h2 y hy'

/-- Claim C9: `embed_text` is total (it is a Lean function); empty or
whitespace-only content returns the all-zero vector before any
normalization, and whenever the sum of squares of a vector is zero,
`normalize` returns it unchanged instead of dividing — and such a vector is
necessarily all-zero. -/
theorem embed_text_total_no_div_by_zero :
    (∀ (hashFn : String → ℕ) (text : String),
      (rsTrim text).data.isEmpty = true →
      embed_text hashFn text = List.replicate EMBEDDING_DIM 0) ∧
    (∀ v : List ℚ, sumSqF v = 0 →
      normalizeVec v = v ∧ ∀ x ∈ v, x = 0) := by
  constructor
  · intro hashFn text h
    rw [embed_text, if_pos h]
  · intro v hs
    refine ⟨by rw [normalizeVec, if_pos hs], fun x hx => ?_⟩
    have hterms : ∀ t ∈ v.map (fun x => fmul x x), 0 ≤ t := by
      intro t ht
      obtain ⟨y, _, rfl⟩ := List.mem_map.mp ht
      exact fround_nonneg (mul_self_nonneg y)
    have hfold := foldl_fadd_eq_zero (v.map (fun x => fmul x x)) 0
      (le_refl 0) hterms hs
    have hxx : fmul x x = 0 := hfold.2 _ (List.mem_map_of_mem _ hx)
    have : x * x = 0 := fround_eq_zero_iff.mp hxx
    exact mul_self_eq_zero.mp this

/-- Witness for C9: whitespace-only text embeds to the zero vector, and a
zero-sum-of-squares vector passes through `normalize` untouched. -/
theorem embed_text_total_no_div_by_zero_witness :
    ((rsTrim "  ").data.isEmpty = true ∧
      embed_text (fun _ => 7) "  " = List.replicate EMBEDDING_DIM 0) ∧
    (sumSqF [0, 0] = 0 ∧ normalizeVec [0, 0] = [0, 0]) := by
  refine ⟨⟨by decide, ?_⟩, by decide, ?_⟩
  · exact (embed_text_total_no_div_by_zero).1 (fun _ => 7) "  " (by decide)
  · exact ((embed_text_total_no_div_by_zero).2 [0, 0] (by decide)).1

/-- Claim C5: when parsing fails during a `didOpen`, no document is inserted
(the map is unchanged); when parsing fails during a `didChange`, the stored
map is identical before and after. -/
theorem parse_failure_preserves_documents :
    (∀ (o : ParserOracle) (m : DocMap) (item : TextDocItem) (e : AstError),
      parse_document o item.language_id item.text = .error e →
      upsert_document o m item = m) ∧
    (∀ (o : ParserOracle) (m : DocMap) (uri : String)
      (changes : List ChangeEvent) (doc : LspDoc) (change : ChangeEvent)
      (e : AstError),
      mapGet m uri = some doc →
      changes.getLast? = some change →
      parse_document o doc.language_id change.text = .error e →
      (update_document o m uri changes).1 = m) := by
  constructor
  · intro o m item e h
    rw [upsert_document, h]
  · intro o m uri changes doc change e hget hlast hparse
    rw [update_document, hlast]
    dsimp only
    rw [hget]
    dsimp only
    have hnew : (match change.range, change.rangeLength with
        | none, none => change.text
        | _, _ => change.text) = change.text := by
      rcases change.range with _ | r <;> rcases change.rangeLength with _ | n <;> rfl
    rw [hnew, hparse]

/-- Witness for C5: a failing parse during open inserts nothing, and a
failing re-parse during change leaves the stored map unchanged. -/
theorem parse_failure_preserves_documents_witness :
    (parse_document failingOracle "json" "x" = .error .parse ∧
      upsert_document failingOracle [] ⟨"u", "json", "x"⟩ = []) ∧
    (mapGet [("u", witnessDocC5)] "u" = some witnessDocC5 ∧
      (update_document failingOracle [("u", witnessDocC5)] "u"
        [⟨none, none, "new"⟩]).1 = [("u", witnessDocC5)]) := by
  refine ⟨⟨rfl, ?_⟩, rfl, ?_⟩
  · exact parse_failure_preserves_documents.1 failingOracle []
      ⟨"u", "json", "x"⟩ .parse rfl
  · exact parse_failure_preserves_documents.2 failingOracle
      [("u", witnessDocC5)] "u" [⟨none, none, "new"⟩] witnessDocC5
      ⟨none, none, "new"⟩ .parse rfl rfl rfl

/-- Claim C6: the reference entries appended by `references` never contain
the originally resolved identifier node's exact range, whatever the
include-declaration flag; the full result is the optional declaration
location followed by exactly those entries. -/
theorem references_exclude_queried_range :
    (∀ (doc : LspDoc) (name : String) (rng : LspRange)
      (r : LspRange), r ∈ appendedReferenceRanges doc name rng → r ≠ rng) ∧
    (∀ (m : DocMap) (uri : String) (pos : ℕ × ℕ) (flag : Bool)
      (doc : LspDoc) (name : String) (node : TSNode),
      mapGet m uri = some doc →
      identifier_at_position doc pos = some (name, node) →
      references m uri pos flag = some (
        (if flag then
          (match find_declaration doc name with
            | some range => [⟨uri, range⟩]
            | none => [])
         else []) ++
        (appendedReferenceRanges doc name (to_lsp_range node)).map
          (fun r => ⟨uri, r⟩))) := by
  constructor
  · intro doc name rng r hr
    have := List.of_mem_filter hr
    simpa using this
  · intro m uri pos flag doc name node hget hident
    rw [references, hget]
    dsimp only
    rw [hident]

/-- Witness for C6: with the cursor on the first occurrence, the second
occurrence's range is collected while the queried range is filtered out. -/
theorem references_exclude_queried_range_witness :
    (((1,0),(1,1)) ∈ appendedReferenceRanges witnessDocC6 "x"
        (to_lsp_range witnessId1C6) ∧
      ((1,0),(1,1)) ≠ to_lsp_range witnessId1C6) ∧
    (mapGet [("u", witnessDocC6)] "u" = some witnessDocC6 ∧
      identifier_at_position witnessDocC6 (0,0) = some ("x", witnessId1C6) ∧
      references [("u", witnessDocC6)] "u" (0,0) true = some
        ((appendedReferenceRanges witnessDocC6 "x"
          (to_lsp_range witnessId1C6)).map (fun r => ⟨"u", r⟩))) := by
  have hmem : (((1,0),(1,1)) : LspRange) ∈
      appendedReferenceRanges witnessDocC6 "x" (to_lsp_range witnessId1C6) := by
    simp [appendedReferenceRanges, find_references, refsLoop, witnessDocC6,
      witnessId1C6, witnessId2C6, is_identifier, TSNode.kind, TSNode.children,
      TSNode.named, TSNode.text, rsTrim, trimL, to_lsp_range,
      TSNode.startPoint, TSNode.endPoint]
  have hdecl : find_declaration witnessDocC6 "x" = none := by
    simp [find_declaration, declLoop, witnessDocC6, witnessId1C6, witnessId2C6,
      looks_like_declaration, DECL_KINDS, is_identifier, TSNode.kind,
      TSNode.children, TSNode.named, TSNode.text, rsTrim, trimL]
  refine ⟨⟨hmem, ?_⟩, rfl, rfl, ?_⟩
  · exact references_exclude_queried_range.1 witnessDocC6 "x"
      (to_lsp_range witnessId1C6) _ hmem
  · have h2 := references_exclude_queried_range.2 [("u", witnessDocC6)] "u"
      (0,0) true witnessDocC6 "x" witnessId1C6 rfl rfl
    rwa [hdecl] at h2

theorem storeInv_empty : StoreInv emptyIndex := by
  intro p
  exact ⟨by simp [emptyIndex], by simp [emptyIndex]⟩

theorem storeInv_add (hashFn : String → ℕ) (freshId : ℕ) (now : ℤ)
    (st : SemanticIndex) (req : AddDocumentRequest) (hinv : StoreInv st) :
    StoreInv (add_document hashFn freshId now st req).1 := by
  intro p
  obtain ⟨hbound, heq⟩ := hinv p
  rw [add_document]
  dsimp only
  by_cases hp : p = req.path
  · subst hp
    rw [if_pos rfl]
    constructor
    · intro i hi
      rw [List.length_append]
      rcases List.mem_append.mp hi with hold | hnew
      · have := hbound i hold
        omega
      · simp only [List.mem_singleton] at hnew
        subst hnew
        simp
    · rw [List.filterMap_append, List.filter_append]
      congr 1
      · rw [← heq]
        apply List.filterMap_congr
        intro i hi
        exact List.get?_append (hbound i hi)
      · simp [mkDocumentRecord]
  · rw [if_neg hp]
    constructor
    · intro i hi
      rw [List.length_append]
      have := hbound i hi
      omega
    · rw [List.filter_append]
      have hrec : List.filter (fun r => decide (r.path = p))
          [mkDocumentRecord hashFn freshId now req] = [] := by
        have hpath : (mkDocumentRecord hashFn freshId now req).path =
            req.path := rfl
        simp [hpath]
        intro hcontra
        exact hp hcontra.symm
      rw [hrec, List.append_nil, ← heq]
      apply List.filterMap_congr
      intro i hi
      exact List.get?_append (hbound i hi)

theorem storeInv_applyAdds (hashFn : String → ℕ)
    (ops : List (ℕ × ℤ × AddDocumentRequest)) :
    ∀ st, StoreInv st → StoreInv (applyAdds hashFn ops st) := by
  induction ops with
  | nil => intro st h; exact h
  | cons op rest ih =>
    intro st h
    exact ih _ (storeInv_add hashFn op.1 op.2.1 st op.2.2 h)

/-- Claim C7: on every store reachable by `add_document` calls, `history`
returns exactly the records whose path equals the argument (no prefix
matching) in insertion order, an unknown path yields `[]`, and in
particular two adds for `"file.txt"` with commit ids `"a"` then `"b"` give
exactly those two entries in that order. -/
theorem history_exact_path_insertion_order :
    (∀ (hashFn : String → ℕ) (ops : List (ℕ × ℤ × AddDocumentRequest))
      (p : String),
      history_for_path (applyAdds hashFn ops emptyIndex) p =
        ((applyAdds hashFn ops emptyIndex).documents.filter
          (fun r => r.path = p)).map
          (fun r => ⟨r.id, r.commit_id, r.timestamp⟩)) ∧
    (∀ (hashFn : String → ℕ) (ops : List (ℕ × ℤ × AddDocumentRequest))
      (p : String),
      ((applyAdds hashFn ops emptyIndex).documents.filter
        (fun r => r.path = p)) = [] →
      history_for_path (applyAdds hashFn ops emptyIndex) p = []) ∧
    (∀ (hashFn : String → ℕ) (i1 i2 : ℕ) (t1 t2 : ℤ),
      history_for_path (applyAdds hashFn
        [(i1, t1, ⟨"file.txt", "first", some "a", none⟩),
         (i2, t2, ⟨"file.txt", "second", some "b", none⟩)] emptyIndex)
        "file.txt" = [⟨i1, some "a", t1⟩, ⟨i2, some "b", t2⟩]) := by
  have hmain : ∀ (hashFn : String → ℕ)
      (ops : List (ℕ × ℤ × AddDocumentRequest)) (p : String),
      history_for_path (applyAdds hashFn ops emptyIndex) p =
        ((applyAdds hashFn ops emptyIndex).documents.filter
          (fun r => r.path = p)).map
          (fun r => ⟨r.id, r.commit_id, r.timestamp⟩) := by
    intro hashFn ops p
    have hinv := storeInv_applyAdds hashFn ops emptyIndex storeInv_empty p
    rw [history_for_path, hinv.2]
  refine ⟨hmain, fun hashFn ops p h => ?_, fun hashFn i1 i2 t1 t2 => ?_⟩
  · rw [hmain, h]
    rfl
  · rw [hmain]
    rfl

theorem scoreDescLe_trans : ∀ a b c : SearchResult,
    scoreDescLe a b → scoreDescLe b c → scoreDescLe a c := by
  intro a b c hab hbc
  simp only [scoreDescLe, decide_eq_true_eq] at *
  linarith

theorem scoreDescLe_total : ∀ a b : SearchResult,
    scoreDescLe a b || scoreDescLe b a := by
  intro a b
  simp only [scoreDescLe, Bool.or_eq_true, decide_eq_true_eq]
  exact le_total _ _

/-- Claim C8: `search` scores every filtered candidate as the clamped dot
product of the query and record embeddings, sorts by descending score with a
stable sort (ties keep the filter-pass order), and returns at most `top_k`
results. -/
theorem search_scores_sorts_truncates :
    ∀ (hashFn : String → ℕ) (st : SemanticIndex) (req : SearchRequest),
      search hashFn st req =
        ((searchCandidates hashFn st req).mergeSort scoreDescLe).take
          req.top_k ∧
      searchCandidates hashFn st req =
        ((st.documents.filter (fun record =>
            match req.path_pre with
            | some p => record.path.startsWith p
            | none => true)).filter (fun record =>
            match req.commit_id with
            | some commit => record.commit_id == some commit
            | none => true)).map (fun record =>
          ⟨record.id, record.path,
            fclamp (dotF32 (embed_text hashFn req.query) record.embedding)
              (-1) 1,
            snippet160 record.content, record.commit_id,
            record.timestamp⟩) ∧
      (search hashFn st req).length ≤ req.top_k ∧
      List.Pairwise (fun a b : SearchResult => b.score ≤ a.score)
        (search hashFn st req) ∧
      (∀ a b : SearchResult, a.score = b.score →
        [a, b].Sublist (searchCandidates hashFn st req) →
        [a, b].Sublist
          ((searchCandidates hashFn st req).mergeSort scoreDescLe)) := by
  intro hashFn st req
  refine ⟨rfl, rfl, ?_, ?_, ?_⟩
  · rw [search, List.length_take]
    exact min_le_left _ _
  · have hs := @List.sorted_mergeSort SearchResult scoreDescLe
      scoreDescLe_trans scoreDescLe_total (searchCandidates hashFn st req)
    have hs' : List.Pairwise (fun a b : SearchResult => b.score ≤ a.score)
        ((searchCandidates hashFn st req).mergeSort scoreDescLe) := by
      refine hs.imp ?_
      intro a b h
      simpa [scoreDescLe] using h
    exact hs'.sublist (List.take_sublist _ _)
  · intro a b heq hsub
    refine List.pair_sublist_mergeSort scoreDescLe_trans scoreDescLe_total
      ?_ hsub
    simp [scoreDescLe, heq]

/-- Witness for C8: two equal-scored candidates keep their filter-pass
order through the stable sort. -/
theorem search_scores_sorts_truncates_witness :
    witnessRes1C8.score = witnessRes2C8.score ∧
    [witnessRes1C8, witnessRes2C8].Sublist
      (searchCandidates (fun _ => 0) witnessStoreC8 witnessReqC8) ∧
    [witnessRes1C8, witnessRes2C8].Sublist
      ((searchCandidates (fun _ => 0) witnessStoreC8
        witnessReqC8).mergeSort scoreDescLe) := by
  have hc : searchCandidates (fun _ => 0) witnessStoreC8 witnessReqC8 =
      [witnessRes1C8, witnessRes2C8] := rfl
  have hsub : [witnessRes1C8, witnessRes2C8].Sublist
      (searchCandidates (fun _ => 0) witnessStoreC8 witnessReqC8) := by
    rw [hc]
  refine ⟨rfl, hsub, ?_⟩
  exact (search_scores_sorts_truncates (fun _ => 0) witnessStoreC8
    witnessReqC8).2.2.2.2 witnessRes1C8 witnessRes2C8 rfl hsub

/-- A node whose budget is not yet exhausted is always produced. -/
theorem serializeNode_isSome (opts : AstOptions) (n : TSNode) (depth : ℕ)
    (st : SerState) (h : st.remaining ≠ 0) :
    (serializeNode opts n depth st).1.isSome = true := by
  rcases n with ⟨k, nm, sp, ep, sb, eb, tx, cs⟩
  rw [serializeNode, if_neg h]
  rfl

/-- `parse_tree` never fails with `LimitExceeded`. -/
theorem parse_tree_error_ne_limit (o : ParserOracle) (id src : String) :
    parse_tree o id src ≠ .error .limitExceeded := by
  rw [parse_tree]
  rcases language_for_id id with _ | lang
  · simp
  · dsimp only
    split
    · rcases o.parse lang src with _ | tree <;> simp
    · simp

/-- Claim C1 is false as stated: with an unrecognized language identifier,
`build_ast` fails with `UnsupportedLanguage` before any budget check, so
`max_nodes == 0` does not yield `LimitExceeded` for *every* language
identifier. -/
theorem build_ast_limit_counterexample : ¬ ClaimC1 := by
  intro h
  have h1 := h.1 bareOracle "unknown" "" ⟨5, 0, true⟩ rfl
  have heval : build_ast bareOracle "unknown" "" ⟨5, 0, true⟩ =
      .error (.unsupportedLanguage "unknown") := rfl
  rw [heval] at h1
  simp at h1

/-- `build_ast` returns `LimitExceeded` only when `max_nodes = 0` (shared
by the C1 and C10 developments). -/
theorem build_ast_limit_only_if :
    ∀ (o : ParserOracle) (id src : String) (opts : AstOptions),
      build_ast o id src opts = .error .limitExceeded →
      opts.max_nodes = 0 := by
  intro o id src opts h
  by_contra hne
  rw [build_ast] at h
  split at h
  · rename_i e heq
    injection h with h'
    subst h'
    exact parse_tree_error_ne_limit o id src heq
  · rename_i tl heq
    split at h
    · rename_i snd heq2
      have hsome : ∀ t : TSNode,
          serializeNode opts t 0 ⟨opts.max_nodes, 0⟩ = (none, snd) →
          False := by
        intro t ht
        have hs := serializeNode_isSome opts t 0 ⟨opts.max_nodes, 0⟩ hne
        rw [ht] at hs
        simp at hs
      exact hsome _ heq2
    · simp at h

/-- Claim C1 amended: for every *supported* language identifier whose
grammar attaches and whose parse yields a tree, `max_nodes == 0` yields
`LimitExceeded`; and conversely `build_ast` returns `LimitExceeded` only
when `max_nodes == 0` (the budget is exhausted before the root). -/
theorem build_ast_limit_exceeded_iff :
    (∀ (o : ParserOracle) (id src : String) (opts : AstOptions) (lang : Lang)
      (tree : TSNode), language_for_id id = some lang →
      o.setLanguageOk lang = true → o.parse lang src = some tree →
      opts.max_nodes = 0 → build_ast o id src opts = .error .limitExceeded) ∧
    (∀ (o : ParserOracle) (id src : String) (opts : AstOptions),
      build_ast o id src opts = .error .limitExceeded →
      opts.max_nodes = 0) := by
  constructor
  · intro o id src opts lang tree hlang hset hparse hmax
    rw [build_ast, parse_tree, hlang]
    dsimp only
    rw [if_pos hset, hparse]
    dsimp only
    rcases tree with ⟨k, nm, sp, ep, sb, eb, tx, cs⟩
    rw [serializeNode, if_pos hmax]
  · exact build_ast_limit_only_if

/-- Witness for the amended C1 at concrete inputs. -/
theorem build_ast_limit_exceeded_iff_witness :
    (language_for_id "json" = some .json ∧
      bareOracle.setLanguageOk .json = true ∧
      bareOracle.parse .json "x" = some bareRootNode ∧
      build_ast bareOracle "json" "x" ⟨5, 0, true⟩ =
        .error .limitExceeded) ∧
    ((⟨5, 0, true⟩ : AstOptions).max_nodes = 0) := by
  refine ⟨⟨rfl, rfl, rfl, ?_⟩, ?_⟩
  · exact build_ast_limit_exceeded_iff.1 bareOracle "json" "x" ⟨5, 0, true⟩
      .json bareRootNode rfl rfl rfl rfl
  · exact build_ast_limit_exceeded_iff.2 bareOracle "json" "x" ⟨5, 0, true⟩
      (build_ast_limit_exceeded_iff.1 bareOracle "json" "x" ⟨5, 0, true⟩
        .json bareRootNode rfl rfl rfl rfl)

/-- The exact serialization of a childless root node. -/
theorem serializeNode_childless (opts : AstOptions) (k : String) (nm : Bool)
    (sp ep : ℕ × ℕ) (sb eb : ℕ) (tx : String) (st : SerState)
    (h : st.remaining ≠ 0) :
    serializeNode opts (.mk k nm sp ep sb eb tx []) 0 st =
      (some (.mk k sp ep sb eb []
        (if opts.include_snippet then snippetOf tx else none)),
       ⟨st.remaining - 1, st.total + 1⟩) := by
  rw [serializeNode, if_neg h]
  dsimp only
  split
  · rfl
  · rfl

/-- Claim C2 is false as stated: with `max_nodes = 1`, serializing the bare
root consumes the whole budget, the remaining counter reaches zero, and the
`truncated` statistic is `true`. -/
theorem build_ast_empty_truncated_counterexample : ¬ ClaimC2 := by
  intro h
  obtain ⟨resp, h1, _, h3⟩ := h bareOracle "json" ⟨5, 1, true⟩ .json
    bareRootNode rfl rfl rfl rfl (le_refl 1)
  have heval : (build_ast bareOracle "json" "" ⟨5, 1, true⟩).map
      (fun r => r.statistics.truncated) = .ok true := rfl
  rw [h1] at heval
  simp only [Except.map] at heval
  injection heval with h4
  rw [h3] at h4
  exact Bool.false_ne_true h4

/-- Claim C2 amended: for `max_nodes ≥ 1` the empty parse succeeds with
`total_nodes = 1`, and `truncated` is false exactly when `max_nodes ≥ 2`;
at `max_nodes = 1` the root consumes the entire budget and `truncated` is
true. -/
theorem build_ast_empty_source_statistics :
    ∀ (o : ParserOracle) (id : String) (opts : AstOptions) (lang : Lang)
      (root : TSNode),
      language_for_id id = some lang → o.setLanguageOk lang = true →
      o.parse lang "" = some root → root.children = [] →
      1 ≤ opts.max_nodes →
      ∃ resp, build_ast o id "" opts = .ok resp ∧
        resp.statistics.total_nodes = 1 ∧
        resp.statistics.truncated = (opts.max_nodes == 1) := by
  intro o id opts lang root hlang hset hparse hchild hmax
  rcases root with ⟨k, nm, sp, ep, sb, eb, tx, cs⟩
  have hcs : cs = [] := hchild
  subst hcs
  refine ⟨⟨id, .mk k sp ep sb eb []
    (if opts.include_snippet then snippetOf tx else none),
    ⟨1, opts.max_nodes - 1 == 0⟩⟩, ?_, rfl, ?_⟩
  · rw [build_ast, parse_tree, hlang]
    dsimp only
    rw [if_pos hset, hparse]
    dsimp only
    rw [serializeNode_childless opts k nm sp ep sb eb tx _
      (by show opts.max_nodes ≠ 0; omega)]
  · show (opts.max_nodes - 1 == 0) = (opts.max_nodes == 1)
    rcases Nat.exists_eq_add_of_le hmax with ⟨n, hn⟩
    rw [hn]
    have e1 : 1 + n - 1 = n := by omega
    rw [e1]
    rcases n with _ | m
    · rfl
    · have e2 : 1 + (m + 1) = m + 2 := by omega
      rw [e2]
      rfl

/-- Witness for the amended C2: `max_nodes = 2` on the empty source gives
one node and `truncated = false`; the hypotheses are discharged on the stub
parser. -/
theorem build_ast_empty_source_statistics_witness :
    language_for_id "json" = some .json ∧
    bareOracle.parse .json "" = some bareRootNode ∧
    TSNode.children bareRootNode = [] ∧
    ∃ resp, build_ast bareOracle "json" "" ⟨5, 2, true⟩ = .ok resp ∧
      resp.statistics.total_nodes = 1 ∧
      resp.statistics.truncated = ((2 : ℕ) == 1) := by
  refine ⟨rfl, rfl, rfl, ?_⟩
  exact build_ast_empty_source_statistics bareOracle "json" ⟨5, 2, true⟩
    .json bareRootNode rfl rfl rfl rfl (by decide)

/-- Claim C4 is false as stated: `serialize_node` tests `snippet.len() > 120`
in *bytes* but truncates in characters, so a 61-character, 122-byte text
gets an ellipsis appended even though nothing was truncated. -/
theorem snippet_ellipsis_counterexample : ¬ ClaimC4 := by
  intro h
  have h1 := h.1 multibyteText
  revert h1
  decide

/-- Claim C4 amended: the snippet is omitted exactly when the trimmed
covering text is empty; otherwise it is the trimmed text, truncated to its
first 120 characters with an ellipsis appended, the threshold being 120
UTF-8 bytes rather than 120 characters; and that is exactly the field
`serialize_node` stores when snippets are enabled. -/
theorem serialize_snippet_byte_threshold :
    (∀ text : String, snippetOf text = amendedSnippetSpec text) ∧
    (∀ (opts : AstOptions) (n : TSNode) (depth : ℕ) (st : SerState)
      (a : AstNode) (st2 : SerState), opts.include_snippet = true →
      serializeNode opts n depth st = (some a, st2) →
      a.snippet = snippetOf n.text) := by
  constructor
  · intro text
    rw [snippetOf, amendedSnippetSpec]
    by_cases h1 : (rsTrim text).data.isEmpty
    · rw [if_pos h1, if_pos h1]
    · rw [if_neg h1, if_neg h1]
      by_cases h2 : 120 < byteLen (rsTrim text)
      · rw [if_pos h2, if_neg (by omega)]
      · rw [if_neg h2, if_pos (by omega)]
  · intro opts n depth st a st2 hinc heq
    rcases n with ⟨k, nm, sp, ep, sb, eb, tx, cs⟩
    rw [serializeNode] at heq
    by_cases h0 : st.remaining = 0
    · rw [if_pos h0] at heq
      simp at heq
    · rw [if_neg h0] at heq
      dsimp only at heq
      have hfst := congrArg Prod.fst heq
      dsimp only at hfst
      injection hfst with ha
      rw [← ha, TSNode.text]
      show (if opts.include_snippet = true then snippetOf tx else none) =
        snippetOf tx
      rw [hinc, if_pos rfl]

/-- Witness for the amended C4 on a concrete multibyte text and a concrete
serialization. -/
theorem serialize_snippet_byte_threshold_witness :
    snippetOf multibyteText = amendedSnippetSpec multibyteText ∧
    AstNode.snippet (.mk "string" (0,0) (0,61) 0 122 []
      (snippetOf multibyteText)) =
      snippetOf (TSNode.text
        (.mk "string" true (0,0) (0,61) 0 122 multibyteText [])) := by
  refine ⟨serialize_snippet_byte_threshold.1 multibyteText, ?_⟩
  exact serialize_snippet_byte_threshold.2 ⟨5, 5, true⟩
    (.mk "string" true (0,0) (0,61) 0 122 multibyteText []) 0 ⟨5, 0⟩
    (.mk "string" (0,0) (0,61) 0 122 [] (snippetOf multibyteText)) ⟨4, 1⟩
    rfl rfl

theorem handlerOptions_bounds (req : AstRequest) :
    1 ≤ (handlerOptions req).max_depth ∧
    1 ≤ (handlerOptions req).max_nodes ∧
    (req.max_depth = some 0 → (handlerOptions req).max_depth = 1) := by
  rcases req with ⟨l, s, md, mn, is⟩
  rcases md with _ | d <;> rcases mn with _ | n <;> rcases is with _ | b <;>
    simp [handlerOptions, astOptionsDefault] <;> omega

/-- Claim C10 is false as stated: when the parsed root has no named
children (for instance on empty source), a request with `max_depth == 0`
still produces a childless-root-only response — the coercion to depth 1
cannot create children that do not exist. -/
theorem ast_handler_childless_counterexample : ¬ ClaimC10 := by
  intro h
  have h4 := (h bareOracle ⟨"json", "", some 0, some 5, some false⟩).2.2.2
  have heval : ast_handler bareOracle ⟨"json", "", some 0, some 5, some false⟩
      = .ok ⟨"json", .mk "document" (0,0) (0,0) 0 0 [] none, ⟨1, false⟩⟩ :=
    rfl
  exact h4 rfl _ heval rfl

/-- If some child in the list is named and budget remains, the serialized
child list is non-empty. -/
theorem serializeChildren_ne_nil (opts : AstOptions) :
    ∀ (cs : List TSNode) (depth : ℕ) (st : SerState),
      (∃ c ∈ cs, c.named = true) → st.remaining ≠ 0 →
      (serializeChildren opts cs depth st).1 ≠ [] := by
  intro cs
  induction cs with
  | nil =>
    intro depth st hex _
    obtain ⟨c, hc, _⟩ := hex
    exact absurd hc (List.not_mem_nil c)
  | cons c cs ih =>
    intro depth st hex hrem
    rw [serializeChildren]
    by_cases hn : c.named = false
    · rw [if_pos hn]
      obtain ⟨c', hc', hn'⟩ := hex
      rcases List.mem_cons.mp hc' with rfl | hmem
      · rw [hn'] at hn
        cases hn
      · exact ih depth st ⟨c', hmem, hn'⟩ hrem
    · rw [if_neg hn, if_neg hrem]
      have hs := serializeNode_isSome opts c depth st hrem
      rcases hser : serializeNode opts c depth st with ⟨oa, st'⟩
      rcases oa with _ | a
      · rw [hser] at hs
        simp at hs
      · simp

/-- Unfolding of `serialize_node` on a node when budget remains and the
depth limit allows descending. -/
theorem serializeNode_cons (opts : AstOptions) (k : String) (nm : Bool)
    (sp ep : ℕ × ℕ) (sb eb : ℕ) (tx : String) (cs : List TSNode)
    (st : SerState) (h : st.remaining ≠ 0) (hd : 0 < opts.max_depth) :
    serializeNode opts (.mk k nm sp ep sb eb tx cs) 0 st =
      (some (.mk k sp ep sb eb
        (serializeChildren opts cs 1 ⟨st.remaining - 1, st.total + 1⟩).1
        (if opts.include_snippet then snippetOf tx else none)),
       (serializeChildren opts cs 1 ⟨st.remaining - 1, st.total + 1⟩).2) := by
  rw [serializeNode, if_neg h]
  dsimp only
  rw [if_pos hd]

/-- Unfolding of `build_ast` on a successful parse. -/
theorem build_ast_ok_unfold (o : ParserOracle) (id src : String)
    (opts : AstOptions) (lang : Lang) (tree : TSNode)
    (hlang : language_for_id id = some lang)
    (hset : o.setLanguageOk lang = true)
    (hparse : o.parse lang src = some tree) :
    build_ast o id src opts =
      match serializeNode opts tree 0 ⟨opts.max_nodes, 0⟩ with
      | (none, _) => .error .limitExceeded
      | (some root, st) =>
        .ok { language := id, root := root,
              statistics := { total_nodes := st.total,
                              truncated := st.remaining == 0 } } := by
  rw [build_ast, parse_tree, hlang]
  dsimp only
  rw [if_pos hset, hparse]

/-- Claim C10 amended: both options are always coerced to at least one
(`max_depth == 0` becomes exactly 1), the handler can never answer with the
`LimitExceeded` error, and with `max_depth == 0` the response still
serializes the root's named children whenever the parsed root has one and
the effective node budget is at least 2; a childless-root response remains
possible when the root has no named children. -/
theorem ast_handler_coercion :
    ∀ (o : ParserOracle) (req : AstRequest),
      1 ≤ (handlerOptions req).max_depth ∧
      1 ≤ (handlerOptions req).max_nodes ∧
      ast_handler o req ≠ .error (500, astErrorMessage .limitExceeded) ∧
      (req.max_depth = some 0 → (handlerOptions req).max_depth = 1) ∧
      (∀ (lang : Lang) (tree : TSNode),
        language_for_id req.language = some lang →
        o.setLanguageOk lang = true →
        o.parse lang req.source = some tree →
        (∃ c ∈ tree.children, c.named = true) →
        2 ≤ (handlerOptions req).max_nodes →
        ∀ resp, ast_handler o req = .ok resp →
        resp.root.children ≠ []) := by
  intro o req
  obtain ⟨hd1, hn1, hd0⟩ := handlerOptions_bounds req
  refine ⟨hd1, hn1, ?_, hd0, ?_⟩
  · intro habs
    rw [ast_handler] at habs
    split at habs
    · exact Except.noConfusion habs
    · injection habs with hpair
      injection hpair with h500 _
      exact absurd h500 (by norm_num)
    · rename_i e heq hne
      rcases e with l | l | _ | _
      · exact heq l rfl
      · injection habs with hpair
        injection hpair with _ hmsg
        rw [astErrorMessage, astErrorMessage] at hmsg
        have h2 : ("failed to configure parser for language: " ++
            l).data.head? = some 'f' := rfl
        rw [hmsg] at h2
        exact absurd h2 (by decide)
      · injection habs with hpair
        injection hpair with _ hmsg
        rw [astErrorMessage, astErrorMessage] at hmsg
        exact absurd hmsg (by decide)
      · have h0 := build_ast_limit_only_if o req.language req.source
          (handlerOptions req) hne
        omega
  · intro lang tree hlang hset hparse hex hmn2 resp hresp
    rcases tree with ⟨k, nm, sp, ep, sb, eb, tx, cs⟩
    have hval : ast_handler o req = .ok ⟨req.language,
        .mk k sp ep sb eb
          (serializeChildren (handlerOptions req) cs 1
            ⟨(handlerOptions req).max_nodes - 1, 1⟩).1
          (if (handlerOptions req).include_snippet then snippetOf tx
           else none),
        ⟨(serializeChildren (handlerOptions req) cs 1
            ⟨(handlerOptions req).max_nodes - 1, 1⟩).2.total,
         (serializeChildren (handlerOptions req) cs 1
            ⟨(handlerOptions req).max_nodes - 1, 1⟩).2.remaining == 0⟩⟩ := by
      rw [ast_handler,
        build_ast_ok_unfold o req.language req.source (handlerOptions req)
          lang (.mk k nm sp ep sb eb tx cs) hlang hset hparse,
        serializeNode_cons (handlerOptions req) k nm sp ep sb eb tx cs
          ⟨(handlerOptions req).max_nodes, 0⟩
          (by show (handlerOptions req).max_nodes ≠ 0; omega)
          (by omega)]
    rw [hval] at hresp
    injection hresp with hresp'
    rw [← hresp']
    show AstNode.children (.mk k sp ep sb eb
      (serializeChildren (handlerOptions req) cs 1
        ⟨(handlerOptions req).max_nodes - 1, 1⟩).1
      (if (handlerOptions req).include_snippet then snippetOf tx
       else none)) ≠ []
    rw [AstNode.children]
    apply serializeChildren_ne_nil
    · exact hex
    · show (handlerOptions req).max_nodes - 1 ≠ 0
      omega

/-- Witness for the amended C10: a `max_depth = 0` request against a root
with a named child still serializes that child. -/
theorem ast_handler_coercion_witness :
    reqC10.max_depth = some 0 ∧
    language_for_id "ts" = some .typescript ∧
    2 ≤ (handlerOptions reqC10).max_nodes ∧
    AstNode.children (AstResponse.root ⟨"ts",
      .mk "program" (0,0) (0,1) 0 1
        [.mk "identifier" (0,0) (0,1) 0 1 [] (some "x")] (some "x"),
      ⟨2, false⟩⟩) ≠ [] := by
  have hex : ∃ c ∈ childTreeC10.children, c.named = true :=
    ⟨.mk "identifier" true (0,0) (0,1) 0 1 "x" [], by
      rw [childTreeC10, TSNode.children]
      exact List.mem_singleton_self _, rfl⟩
  have heval : ast_handler childOracleC10 reqC10 = .ok ⟨"ts",
      .mk "program" (0,0) (0,1) 0 1
        [.mk "identifier" (0,0) (0,1) 0 1 [] (some "x")] (some "x"),
      ⟨2, false⟩⟩ := rfl
  refine ⟨rfl, rfl, by decide, ?_⟩
  exact (ast_handler_coercion childOracleC10 reqC10).2.2.2.2 .typescript
    childTreeC10 rfl rfl rfl hex (by decide) _ heval

/-- Witness for C7: an unknown path yields `[]`, and the two-add scenario
returns the two history entries in insertion order. -/
theorem history_exact_path_insertion_order_witness :
    history_for_path (applyAdds (fun _ => 0) [] emptyIndex) "nope" = [] ∧
    history_for_path (applyAdds (fun _ => 0)
      [(1, 0, ⟨"file.txt", "first", some "a", none⟩),
       (2, 0, ⟨"file.txt", "second", some "b", none⟩)] emptyIndex)
      "file.txt" = [⟨1, some "a", 0⟩, ⟨2, some "b", 0⟩] := by
  constructor
  · exact history_exact_path_insertion_order.2.1 (fun _ => 0) [] "nope" rfl
  · exact history_exact_path_insertion_order.2.2 (fun _ => 0) 1 2 0 0
